import Mathlib

/-!
Verification of `petl/io/json.py`: readers `fromjson` / `fromdicts` and
writers `tojson` / `tojsonarrays`, shallowly embedded in Lean.

Python values that can appear in a parsed JSON document (and, more
generally, the record values the module manipulates) are modelled by the
inductive type `JValue`.  Mapping-like records are the `JValue.obj`
constructor; every other constructor is a non-mapping value.
-/

namespace PetlJson

/-- A JSON-representable Python value: `None`, booleans, integers, strings,
lists and dicts (modelled as association lists with the insertion order the
parser produced; Python dict keys are unique). -/
inductive JValue where
  | null
  | bool (b : Bool)
  | int (n : Int)
  | str (s : String)
  | arr (vs : List JValue)
  | obj (fs : List (String × JValue))

/-- `hasattr(o, 'keys')` (json.py lines 76 and 130): only dicts expose
key enumeration. -/
def hasKeysAttr : JValue → Bool
  | .obj _ => true
  | _ => false

/-- `o.keys()` for a mapping record; nonsensical (empty) otherwise. -/
def objKeys : JValue → List String
  | .obj fs => fs.map Prod.fst
  | _ => []

/-- The underlying key-value pairs of a mapping record. -/
def objFields : JValue → List (String × JValue)
  | .obj fs => fs
  | _ => []

/-- Python string comparison: lexicographic on the code points. -/
def strLe (a b : String) : Prop :=
  a.data ≤ b.data

instance : DecidableRel strLe :=
  fun a b => inferInstanceAs (Decidable (a.data ≤ b.data))

instance : IsTrans String strLe :=
  ⟨fun _ _ _ h1 h2 => le_trans h1 h2⟩

instance : IsAntisymm String strLe :=
  ⟨fun _ _ h1 h2 => String.ext (le_antisymm h1 h2)⟩

instance : IsTotal String strLe :=
  ⟨fun a b => le_total a.data b.data⟩

/-- Python `sorted` over a collection of strings. -/
def pySorted (l : List String) : List String :=
  List.insertionSort strLe l

/-- Header derivation when no explicit header is given (json.py lines
74-78 and 127-132): fold the records left to right collecting the keys of
every record that has a `keys` attribute into a set (modelled here as the
deduplicated list of the collected keys), then sort it with Python
`sorted`. -/
def deriveHdr (records : List JValue) : List String :=
  pySorted
    ((records.foldl
        (fun acc o => if hasKeysAttr o then acc ++ objKeys o else acc)
        []).dedup)

/-- The union of the top-level key sets of the mapping-like records of the
sequence, each non-mapping record contributing no keys.  Stated from the
spec's words, to be compared with `deriveHdr`. -/
def keyUnion : List JValue → Finset String
  | [] => ∅
  | o :: os => (if hasKeysAttr o then (objKeys o).toFinset else ∅) ∪ keyUnion os

/-- The spec's description of the derived header: the lexicographically
sorted union of the top-level keys of every mapping-like record. -/
def sortedKeyUnion (records : List JValue) : List String :=
  Finset.sort strLe (keyUnion records)

/-- Python substring containment, `needle in hay` for strings. -/
def strContains (needle hay : String) : Bool :=
  hay.toList.tails.any (fun t => needle.toList.isPrefixOf t)

/-- One field of a data row, `o[f] if f in o else None` (json.py lines 84
and 138), for a record `o` of any shape.  A dict looks the key up; on a
string `f in o` is a substring test and on a list it is element
membership, and a hit then makes `o[f]` raise `TypeError` (non-integer
index) while a miss gives `None`; `in` on any other value raises
`TypeError` outright. -/
def pyIndexOrNull (o : JValue) (f : String) : Except String JValue :=
  match o with
  | .obj fs => .ok ((fs.lookup f).getD .null)
  | .str s => if strContains f s then .error "TypeError" else .ok .null
  | .arr vs =>
      if vs.any (fun v => match v with | .str t => t == f | _ => false) then
        .error "TypeError"
      else .ok .null
  | _ => .error "TypeError"

/-- `tuple(o[f] if f in o else None for f in hdr)` (json.py lines 84 and
138): the fields are evaluated left to right and the first failure
propagates. -/
def projectRow (hdr : List String) (o : JValue) : Except String (List JValue) :=
  hdr.mapM (pyIndexOrNull o)

/-- Modelled from the spec: the projection §4.1 describes, substituting
the configured missing-value sentinel for absent header fields of a
mapping record. -/
def projectRowSpec (hdr : List String) (missing : JValue) (o : JValue) :
    Except String (List JValue) :=
  match o with
  | .obj fs => .ok (hdr.map (fun f => (fs.lookup f).getD missing))
  | _ => .error "TypeError"

/-- The data-row loop of a reader (`for o in result: yield row`): the rows
produced before the first failing record, and the error that stopped the
generator, if any. -/
def projectAll (hdr : List String) : List JValue → List (List JValue) × Option String
  | [] => ([], none)
  | o :: os =>
      match projectRow hdr o with
      | .error e => ([], some e)
      | .ok r =>
          let rest := projectAll hdr os
          (r :: rest.1, rest.2)

/-- The header row as yielded (`yield tuple(hdr)`): a tuple of the field
name strings. -/
def rowOfHdr (hdr : List String) : List JValue :=
  hdr.map JValue.str

/-- The row sequence produced by `JsonView.__iter__` (json.py lines
72-85) once `json.load` has returned the record list: the header row (the
explicit header if one was configured, else the derived one), then one
row per record, together with the error that interrupted the generator,
if any.  `missing` is the sentinel `JsonView.__init__` pops from the
keyword arguments; line 84 substitutes the literal `None` for an absent
field, so the parameter is unused. -/
def jsonViewIterList (header : Option (List String)) (missing : JValue)
    (records : List JValue) : List (List JValue) × Option String :=
  let hdr := match header with
    | none => deriveHdr records
    | some h => h
  let rest := projectAll hdr records
  (rowOfHdr hdr :: rest.1, rest.2)

/-- The row sequence produced by `DictsView.__iter__` (json.py lines
124-139): identical header derivation and projection, over an in-memory
record sequence, with no missing-value option at all. -/
def dictsViewIterList (header : Option (List String))
    (dicts : List JValue) : List (List JValue) × Option String :=
  let hdr := match header with
    | none => deriveHdr dicts
    | some h => h
  let rest := projectAll hdr dicts
  (rowOfHdr hdr :: rest.1, rest.2)

/-- A petl table as the writers consume it: a header row of field names
followed by data rows. -/
structure PTable where
  hdr : List String
  rows : List (List JValue)

/-- Modelled from the spec: iterating a petl table (`petl.util.base.Table`,
not under src/) yields the header row first, then the data rows
(`list(table)`, json.py line 189). -/
def tableRows (t : PTable) : List (List JValue) :=
  rowOfHdr t.hdr :: t.rows

/-- Modelled from the spec: `petl.util.base.data` (not under src/) skips
the header row and yields the data rows (`list(data(table))`, json.py
line 191). -/
def dataRows (t : PTable) : List (List JValue) :=
  t.rows

/-- Modelled from the spec: `petl.util.base.dicts` (not under src/)
materializes one data row into a mapping from header field to the row
value at that field's position. -/
def rowDict (hdr : List String) (row : List JValue) : JValue :=
  .obj (hdr.zip row)

/-- The in-memory object `tojson` hands to the encoder (json.py line
161): the list of per-row dicts. -/
def tojsonObj (t : PTable) : JValue :=
  .arr ((dataRows t).map (rowDict t.hdr))

/-- The in-memory object `tojsonarrays` hands to the encoder (json.py
lines 188-191): all rows including the header when `output_header` is
set, else the data rows only, each row encoded as a JSON array. -/
def tojsonarraysObj (t : PTable) (output_header : Bool) : JValue :=
  .arr ((if output_header then tableRows t else dataRows t).map JValue.arr)

/-- Model of the external JSON codec's string escaping (Python `json`,
default options), for the characters the module's data can contain. -/
def escapeChar (c : Char) : String :=
  if c = '"' then "\\\"" else if c = '\\' then "\\\\" else String.singleton c

def escapeStr (s : String) : String :=
  String.join (s.toList.map escapeChar)

/-- Model of the external JSON codec's incremental interface
(`JSONEncoder.iterencode`, default separators `", "` and `": "`): the
chunk stream whose concatenation is the serialized document.  An empty
array is the single chunk `"[]"`. -/
def chunks : JValue → List String
  | .null => ["null"]
  | .bool b => [if b then "true" else "false"]
  | .int n => [toString n]
  | .str s => ["\"" ++ escapeStr s ++ "\""]
  | .arr [] => ["[]"]
  | .arr (v :: vs) =>
      "[" :: (chunks v ++ vs.attach.flatMap (fun w => ", " :: chunks w.1)) ++ ["]"]
  | .obj [] => ["\x7b\x7d"]
  | .obj ((k, v) :: fs) =>
      "\x7b" :: ("\"" ++ escapeStr k ++ "\": ") :: chunks v
        ++ fs.attach.flatMap
            (fun kw => ", " :: ("\"" ++ escapeStr kw.1.1 ++ "\": ") :: chunks kw.1.2)
        ++ ["\x7d"]
termination_by v => sizeOf v
decreasing_by
  · simp_wf
    omega
  · simp_wf
    have h := List.sizeOf_lt_of_mem w.2
    omega
  · simp_wf
    omega
  · simp_wf
    have h := List.sizeOf_lt_of_mem kw.2
    have h2 : sizeOf kw.1.2 < sizeOf kw.1 := by
      obtain ⟨⟨k1, v1⟩, hk⟩ := kw
      simp
    omega

/-- The codec's full output for a value: the concatenation of its chunk
stream. -/
def encodeJ (v : JValue) : String :=
  String.join (chunks v)

/-- `_writeobj` (json.py lines 215-221) at the level of the text written:
the optional prefix literal, then every encoder chunk in order, then the
optional suffix literal; a `None` prefix or suffix writes nothing. -/
def writeobjStr (obj : JValue) (pfx suffix : Option String) : String :=
  let out := match pfx with
    | some p => p
    | none => ""
  let out := (chunks obj).foldl (fun acc c => acc ++ c) out
  match suffix with
  | some s => out ++ s
  | none => out

/-- The text `tojson` writes (json.py lines 160-162 via `_writejson`). -/
def tojsonOut (t : PTable) (pfx suffix : Option String) : String :=
  writeobjStr (tojsonObj t) pfx suffix

/-- The text `tojsonarrays` writes (json.py lines 188-192 via
`_writejson`). -/
def tojsonarraysOut (t : PTable) (pfx suffix : Option String)
    (output_header : Bool) : String :=
  writeobjStr (tojsonarraysObj t output_header) pfx suffix

/-! Resource events.  `JsonView.__iter__` and `_writejson` both open a
byte source scoped by `with`, wrap it for text IO, and detach the wrapper
in a `finally` before the `with` scope closes the byte resource. -/

/-- Observable resource events of a read or write call. -/
inductive Ev where
  | openR
  | detachR
  | closeR
  | openW
  | detachW
  | closeW
deriving DecidableEq

/-- A computation together with the resource events it performs. -/
def Trace (α : Type) : Type :=
  List Ev × Except String α

/-- Python `try: body finally: fin`: the final events happen whether the
body succeeded or raised, and the body's outcome propagates. -/
def tryFinallyTr {α : Type} (body : Trace α) (fin : List Ev) : Trace α :=
  (body.1 ++ fin, body.2)

/-- Python `with open() as f: body`: the resource is acquired before the
body and released after it on every path, and the body's outcome
propagates. -/
def withOpenTr {α : Type} (o c : Ev) (body : Trace α) : Trace α :=
  (o :: body.1 ++ [c], body.2)

/-- An event-free computation. -/
def pureTr {α : Type} (x : Except String α) : Trace α :=
  ([], x)

/-- `JsonView.__iter__` (json.py lines 64-88) with its `json.load` call
abstracted to an outcome `parse`: open the byte source, wrap it, try the
parse-and-project body, detach the wrapper in the `finally`, close the
byte source on scope exit. -/
def jsonViewRun (parse : Except String (List JValue))
    (header : Option (List String)) (missing : JValue) :
    Trace (List (List JValue) × Option String) :=
  withOpenTr .openR .closeR
    (tryFinallyTr (pureTr (parse.map (jsonViewIterList header missing)))
      [.detachR])

/-- `_writejson` (json.py lines 198-212) with the encode-and-write body
abstracted to an outcome `body` (the text written, or the encode error):
open the byte sink, wrap it, try the body, detach the wrapper in the
`finally`, close the byte sink on scope exit. -/
def writejsonRun (body : Except String String) : Trace String :=
  withOpenTr .openW .closeW (tryFinallyTr (pureTr body) [.detachW])

/-! Keyword-argument handling of `JsonView.__init__`. -/

/-- `kwargs.pop(k, None)` on a Python dict (json.py lines 61-62): the
value at the key (or `None` when absent) and the dict without the key;
dict keys are unique, so removing the key is filtering it out. -/
def popKw (k : String) (kw : List (String × JValue)) :
    JValue × List (String × JValue) :=
  ((kw.lookup k).getD .null, kw.filter (fun p => p.1 != k))

/-- The state `JsonView.__init__` leaves behind. -/
structure JsonViewState where
  args : List JValue
  kwargs : List (String × JValue)
  missing : JValue
  header : JValue

/-- `JsonView.__init__` (json.py lines 57-62): stores the positional and
keyword arguments, then pops `missing` and `header` out of the stored
kwargs dict (the attribute aliases the dict being popped, so the stored
kwargs end without those two keys). -/
def jsonViewInit (args : List JValue) (kwargs : List (String × JValue)) :
    JsonViewState :=
  let pm := popKw "missing" kwargs
  let ph := popKw "header" pm.2
  { args := args, kwargs := ph.2, missing := pm.1, header := ph.1 }

/-- The arguments `JsonView.__iter__` forwards to the full-document parse
`json.load(f, *self.args, **self.kwargs)` (json.py line 71). -/
def jsonLoadArgs (st : JsonViewState) : List JValue × List (String × JValue) :=
  (st.args, st.kwargs)

/-! Helper lemmas. -/

theorem foldl_keys_toFinset (records : List JValue) (acc : List String) :
    (records.foldl
        (fun acc o => if hasKeysAttr o then acc ++ objKeys o else acc)
        acc).toFinset = acc.toFinset ∪ keyUnion records := by
  induction records generalizing acc with
  | nil => simp [keyUnion]
  | cons o os ih =>
      simp only [List.foldl_cons, keyUnion, ih]
      by_cases h : hasKeysAttr o <;>
        simp [h, List.toFinset_append, Finset.union_assoc]

/-- The folded key-set derivation equals the sorted key union described by
the spec: both are sorted, duplicate-free, and hold the same keys. -/
theorem deriveHdr_eq_sortedKeyUnion (records : List JValue) :
    deriveHdr records = sortedKeyUnion records := by
  unfold deriveHdr sortedKeyUnion pySorted
  set L := (records.foldl
      (fun acc o => if hasKeysAttr o then acc ++ objKeys o else acc)
      []).dedup with hL
  have hnd : L.Nodup := by
    rw [hL]; exact List.nodup_dedup _
  have hfin : L.toFinset = keyUnion records := by
    rw [hL]
    have hd : ∀ l : List String, l.dedup.toFinset = l.toFinset := by
      intro l; ext a; simp
    rw [hd, foldl_keys_toFinset]
    simp
  refine List.eq_of_perm_of_sorted ?_ (List.sorted_insertionSort _ _)
    (Finset.sort_sorted _ _)
  have h2 : List.Perm (Finset.sort strLe (keyUnion records)) L := by
    rw [← hfin]
    exact (Finset.sort_perm_toList _ _).trans (List.toFinset_toList hnd)
  exact (List.perm_insertionSort _ _).trans h2.symm

/-- Projecting a mapping record never fails: each field is the looked-up
value, or `None` when the key is absent. -/
theorem projectRow_obj (hdr : List String) (fs : List (String × JValue)) :
    projectRow hdr (.obj fs) =
      .ok (hdr.map (fun f => (fs.lookup f).getD .null)) := by
  induction hdr with
  | nil => rfl
  | cons f hdr ih =>
      unfold projectRow at ih ⊢
      rw [List.mapM_cons, ih]
      rfl

/-- The data-row loop over mapping records produces one row per record
and no error. -/
theorem projectAll_obj (hdr : List String) (records : List JValue)
    (hobj : ∀ o ∈ records, hasKeysAttr o = true) :
    projectAll hdr records =
      (records.map
        (fun o => hdr.map (fun f => ((objFields o).lookup f).getD .null)),
       none) := by
  induction records with
  | nil => rfl
  | cons o os ih =>
      have ho := hobj o (by simp)
      obtain ⟨fs, rfl⟩ : ∃ fs, o = .obj fs := by
        cases o <;> simp [hasKeysAttr] at ho ⊢
      simp [projectAll, projectRow_obj, objFields,
        ih (fun o ho2 => hobj o (by simp [ho2]))]

/-- Looking an association list built by zipping a duplicate-free header
with an equally long row back up recovers the row. -/
theorem lookup_zip_self (hdr : List String) (r : List JValue)
    (hnd : hdr.Nodup) (hlen : r.length = hdr.length) :
    hdr.map (fun f => (((hdr.zip r).lookup f).getD .null)) = r := by
  induction hdr generalizing r with
  | nil => cases r <;> simp_all
  | cons f hdr ih =>
      cases r with
      | nil => simp at hlen
      | cons v r =>
          have hf : ∀ g ∈ hdr, g ≠ f := by
            intro g hg hgf
            exact (List.nodup_cons.mp hnd).1 (hgf ▸ hg)
          have hcongr :
              hdr.map (fun g => ((((f, v) :: hdr.zip r).lookup g).getD .null)) =
                hdr.map (fun g => (((hdr.zip r).lookup g).getD .null)) := by
            apply List.map_congr_left
            intro g hg
            have hb : (g == f) = false := beq_false_of_ne (hf g hg)
            simp [List.lookup_cons, hb]
          simp only [List.zip_cons_cons, List.map_cons]
          congr 1
          · simp [List.lookup_cons]
          · rw [hcongr, ih r (List.nodup_cons.mp hnd).2 (by simpa using hlen)]

/-- Folding string concatenation over the chunk stream from a given start
appends the stream's concatenation to it. -/
theorem foldl_append_chunks (l : List String) (init : String) :
    l.foldl (fun acc c => acc ++ c) init = init ++ String.join l := by
  induction l generalizing init with
  | nil => simp [String.join, String.append_empty]
  | cons c l ih =>
      have hj : String.join (c :: l) = c ++ String.join l := by
        show List.foldl (fun r s => r ++ s) "" (c :: l) = c ++ String.join l
        rw [List.foldl_cons, String.empty_append]
        exact ih c
      rw [List.foldl_cons, ih (init ++ c), hj, String.append_assoc]

theorem lookup_filter_self (kw : List (String × JValue)) (k : String) :
    (kw.filter (fun p => p.1 != k)).lookup k = none := by
  induction kw with
  | nil => rfl
  | cons p kw ih =>
      obtain ⟨p1, p2⟩ := p
      by_cases h : p1 = k
      · simp [List.filter_cons, h, ih]
      · have hk : (k == p1) = false := beq_false_of_ne (Ne.symm h)
        simp [List.filter_cons, h, List.lookup_cons, hk, ih]

theorem lookup_filter_other (kw : List (String × JValue)) (k k' : String)
    (h : k' ≠ k) :
    (kw.filter (fun p => p.1 != k)).lookup k' = kw.lookup k' := by
  induction kw with
  | nil => rfl
  | cons p kw ih =>
      obtain ⟨p1, p2⟩ := p
      by_cases hp : p1 = k
      · have hk2 : (k' == k) = false := beq_false_of_ne h
        simp [List.filter_cons, hp, List.lookup_cons, hk2, ih]
      · by_cases hke : k' = p1
        · simp [List.filter_cons, hp, List.lookup_cons, hke]
        · have hk : (k' == p1) = false := beq_false_of_ne hke
          simp [List.filter_cons, hp, List.lookup_cons, hk, ih]

/-- Reading with an explicit header over mapping records: the header row
is the header verbatim, each data row projects its record onto exactly
the header fields, and no error occurs. -/
theorem jsonViewIterList_some (hdr : List String) (missing : JValue)
    (records : List JValue)
    (hobj : ∀ o ∈ records, hasKeysAttr o = true) :
    jsonViewIterList (some hdr) missing records =
      (rowOfHdr hdr ::
        records.map
          (fun o => hdr.map (fun f => ((objFields o).lookup f).getD .null)),
       none) := by
  show (rowOfHdr hdr :: (projectAll hdr records).1,
      (projectAll hdr records).2) = _
  rw [projectAll_obj hdr records hobj]

/-- What `_writeobj` writes is the prefix, the encoder's whole output,
and the suffix, with absent wrappers contributing nothing. -/
theorem writeobjStr_eq (obj : JValue) (pfx suffix : Option String) :
    writeobjStr obj pfx suffix =
      pfx.getD "" ++ encodeJ obj ++ suffix.getD "" := by
  unfold writeobjStr encodeJ
  cases pfx <;> cases suffix <;>
    simp [foldl_append_chunks, String.append_empty, String.empty_append]

/-! The claims. -/

/-- C1: for every record sequence read via `fromjson` or `fromdicts` with
no explicit header, the emitted header row is the lexicographically
sorted union of the top-level keys of the mapping-like records of the
sequence, with non-mapping entries contributing no keys. -/
theorem c1_header_is_sorted_key_union (missing : JValue)
    (records : List JValue) :
    (jsonViewIterList none missing records).1.head? =
      some (rowOfHdr (sortedKeyUnion records)) ∧
    (dictsViewIterList none records).1.head? =
      some (rowOfHdr (sortedKeyUnion records)) := by
  constructor <;>
    simp [jsonViewIterList, dictsViewIterList, deriveHdr_eq_sortedKeyUnion]

/-- C2 (code bug): `JsonView.__init__` pops and stores the `missing`
option, but line 84 substitutes the literal `None` for an absent field.
With `missing` configured to the string "X" and header `["a"]`, the
empty record produces the row `(None,)`, while the spec's projection
produces `("X",)`. -/
theorem c2_missing_sentinel_ignored :
    (jsonViewInit [] [("missing", JValue.str "X")]).missing = JValue.str "X" ∧
    jsonViewIterList (some ["a"]) (JValue.str "X") [JValue.obj []] =
      ([[JValue.str "a"], [JValue.null]], none) ∧
    projectRowSpec ["a"] (JValue.str "X") (JValue.obj []) =
      .ok [JValue.str "X"] ∧
    JValue.null ≠ JValue.str "X" :=
  ⟨rfl, rfl, rfl, fun h => JValue.noConfusion h⟩

/-- C3: an explicit header is emitted verbatim; every data row is the
projection of its record onto exactly the header fields, so record keys
outside the header are dropped and header fields absent from the record
are filled with the default `None` sentinel. -/
theorem c3_explicit_header_verbatim (hdr : List String) (missing : JValue)
    (records : List JValue)
    (hobj : ∀ o ∈ records, hasKeysAttr o = true) :
    jsonViewIterList (some hdr) missing records =
      (rowOfHdr hdr ::
        records.map
          (fun o => hdr.map (fun f => ((objFields o).lookup f).getD .null)),
       none) :=
  jsonViewIterList_some hdr missing records hobj

/-- C3 witness: header `["x", "y"]` with record `{"x": 1, "z": 9}` yields
the row `(1, None)`. -/
theorem c3_explicit_header_verbatim_witness :
    jsonViewIterList (some ["x", "y"]) JValue.null
        [JValue.obj [("x", JValue.int 1), ("z", JValue.int 9)]] =
      ([[JValue.str "x", JValue.str "y"], [JValue.int 1, JValue.null]],
       none) := by
  have h := c3_explicit_header_verbatim ["x", "y"] JValue.null
      [JValue.obj [("x", JValue.int 1), ("z", JValue.int 9)]]
      (by intro o ho; simp at ho; subst ho; rfl)
  exact h

/-- C4: `tojsonarrays` with `output_header` at its default false encodes
exactly one JSON array per data row in original order and no header
element; with `output_header` true the header row is the first encoded
array, unchanged, followed by the data rows. -/
theorem c4_tojsonarrays_output_header (t : PTable) :
    tojsonarraysObj t false = JValue.arr (t.rows.map JValue.arr) ∧
    tojsonarraysObj t true =
      JValue.arr (JValue.arr (rowOfHdr t.hdr) :: t.rows.map JValue.arr) := by
  constructor <;> simp [tojsonarraysObj, tableRows, dataRows]

/-- C5: writing a table with `tojson` produces the array of per-row
field-to-value mappings, and reading that array back with `fromjson`
under the original header recovers exactly the original data rows. -/
theorem c5_tojson_fromjson_roundtrip (t : PTable) (hnd : t.hdr.Nodup)
    (hlen : ∀ r ∈ t.rows, r.length = t.hdr.length) :
    tojsonObj t = JValue.arr ((dataRows t).map (rowDict t.hdr)) ∧
    jsonViewIterList (some t.hdr) JValue.null
        ((dataRows t).map (rowDict t.hdr)) =
      (rowOfHdr t.hdr :: t.rows, none) := by
  refine ⟨rfl, ?_⟩
  have hobj : ∀ o ∈ (dataRows t).map (rowDict t.hdr), hasKeysAttr o = true := by
    intro o ho
    simp only [dataRows, rowDict, List.mem_map] at ho
    obtain ⟨r, hr, rfl⟩ := ho
    rfl
  rw [jsonViewIterList_some _ _ _ hobj]
  have hrows :
      ((dataRows t).map (rowDict t.hdr)).map
          (fun o => t.hdr.map (fun f => ((objFields o).lookup f).getD .null)) =
        t.rows := by
    rw [List.map_map]
    have h1 : (dataRows t).map
          ((fun o => t.hdr.map (fun f => ((objFields o).lookup f).getD .null))
            ∘ rowDict t.hdr) =
        (dataRows t).map id :=
      List.map_congr_left (fun r hr => by
        simp only [Function.comp, rowDict, objFields, id]
        exact lookup_zip_self t.hdr r hnd (hlen r hr))
    rw [h1, List.map_id]
    rfl
  rw [hrows]

/-- C5 witness: a concrete two-row table with a duplicate-free header
round-trips through the object writer and the array reader. -/
theorem c5_tojson_fromjson_roundtrip_witness :
    tojsonObj ⟨["a", "b"],
        [[JValue.int 1, JValue.str "u"], [JValue.null, JValue.bool true]]⟩ =
      JValue.arr
        [JValue.obj [("a", JValue.int 1), ("b", JValue.str "u")],
         JValue.obj [("a", JValue.null), ("b", JValue.bool true)]] ∧
    jsonViewIterList (some ["a", "b"]) JValue.null
        [JValue.obj [("a", JValue.int 1), ("b", JValue.str "u")],
         JValue.obj [("a", JValue.null), ("b", JValue.bool true)]] =
      ([[JValue.str "a", JValue.str "b"],
        [JValue.int 1, JValue.str "u"], [JValue.null, JValue.bool true]],
       none) := by
  have h := c5_tojson_fromjson_roundtrip
      ⟨["a", "b"],
        [[JValue.int 1, JValue.str "u"], [JValue.null, JValue.bool true]]⟩
      (by decide) (by decide)
  exact ⟨h.1, h.2⟩

/-- C6: a read or write acquires the byte resource once and releases the
text wrapper and then the resource on every exit path; a parse or encode
error propagates to the caller unchanged. -/
theorem c6_resource_release (parse : Except String (List JValue))
    (header : Option (List String)) (missing : JValue)
    (body : Except String String) (msg : String) :
    (jsonViewRun parse header missing).1 =
      [Ev.openR, Ev.detachR, Ev.closeR] ∧
    (jsonViewRun parse header missing).2 =
      parse.map (jsonViewIterList header missing) ∧
    (writejsonRun body).1 = [Ev.openW, Ev.detachW, Ev.closeW] ∧
    (writejsonRun body).2 = body ∧
    (jsonViewRun (.error msg) header missing).2 = .error msg ∧
    (writejsonRun (.error msg)).2 = .error msg :=
  ⟨rfl, rfl, rfl, rfl, rfl, rfl⟩

/-- C7: an empty record sequence yields exactly one row, the explicit
header if given and the empty header otherwise, for both readers. -/
theorem c7_empty_records (header : Option (List String)) (missing : JValue) :
    jsonViewIterList header missing [] =
      ([rowOfHdr (header.getD [])], none) ∧
    dictsViewIterList header [] = ([rowOfHdr (header.getD [])], none) := by
  cases header <;> exact ⟨rfl, rfl⟩

/-- C8: a table with zero data rows writes the empty JSON array `[]`
through either writer (with `output_header` at its default), wrapped by
the prefix and suffix when given. -/
theorem c8_empty_table_writes_empty_array (hdr : List String)
    (pfx suffix : Option String) :
    tojsonOut ⟨hdr, []⟩ pfx suffix =
      pfx.getD "" ++ "[]" ++ suffix.getD "" ∧
    tojsonarraysOut ⟨hdr, []⟩ pfx suffix false =
      pfx.getD "" ++ "[]" ++ suffix.getD "" := by
  refine ⟨?_, ?_⟩ <;>
    · show writeobjStr (JValue.arr []) pfx suffix =
        pfx.getD "" ++ "[]" ++ suffix.getD ""
      rw [writeobjStr_eq]
      have he : encodeJ (JValue.arr []) = "[]" := by
        simp [encodeJ, chunks]
        rfl
      rw [he]

/-- C9: the written output is the prefix text, then exactly the JSON
encoder's output, then the suffix text, with nothing else inserted by the
writer; a `None` prefix or suffix contributes nothing. -/
theorem c9_prefix_suffix_exact (obj : JValue) (pfx suffix : Option String) :
    writeobjStr obj pfx suffix =
      pfx.getD "" ++ encodeJ obj ++ suffix.getD "" ∧
    writeobjStr obj none none = encodeJ obj := by
  refine ⟨writeobjStr_eq obj pfx suffix, ?_⟩
  rw [writeobjStr_eq]
  simp [String.append_empty, String.empty_append]

/-- C10: `fromjson` consumes `missing` and `header` and does not forward
them to the parse call; the positional arguments and every other keyword
argument reach `json.load` unchanged. -/
theorem c10_kwargs_not_forwarded (args : List JValue)
    (kwargs : List (String × JValue)) (k : String)
    (hm : k ≠ "missing") (hh : k ≠ "header") :
    (jsonLoadArgs (jsonViewInit args kwargs)).1 = args ∧
    (jsonLoadArgs (jsonViewInit args kwargs)).2.lookup "missing" = none ∧
    (jsonLoadArgs (jsonViewInit args kwargs)).2.lookup "header" = none ∧
    (jsonLoadArgs (jsonViewInit args kwargs)).2.lookup k = kwargs.lookup k ∧
    (jsonViewInit args kwargs).missing =
      (kwargs.lookup "missing").getD JValue.null ∧
    (jsonViewInit args kwargs).header =
      (kwargs.lookup "header").getD JValue.null := by
  refine ⟨rfl, ?_, ?_, ?_, rfl, ?_⟩
  · show ((kwargs.filter (fun p => p.1 != "missing")).filter
        (fun p => p.1 != "header")).lookup "missing" = none
    rw [lookup_filter_other _ _ _ (by decide)]
    exact lookup_filter_self kwargs "missing"
  · exact lookup_filter_self _ "header"
  · show ((kwargs.filter (fun p => p.1 != "missing")).filter
        (fun p => p.1 != "header")).lookup k = kwargs.lookup k
    rw [lookup_filter_other _ _ _ hh, lookup_filter_other _ _ _ hm]
  · show ((kwargs.filter (fun p => p.1 != "missing")).lookup "header").getD
        JValue.null = (kwargs.lookup "header").getD JValue.null
    rw [lookup_filter_other _ _ _ (by decide)]

/-- C10 witness: with `missing`, `parse_float` and `header` keyword
arguments given, the forwarded kwargs still carry `parse_float` with its
original value. -/
theorem c10_kwargs_not_forwarded_witness :
    (jsonLoadArgs (jsonViewInit []
        [("missing", JValue.str "X"), ("parse_float", JValue.bool true),
         ("header", JValue.null)])).2.lookup "parse_float" =
      some (JValue.bool true) := by
  have h := (c10_kwargs_not_forwarded []
      [("missing", JValue.str "X"), ("parse_float", JValue.bool true),
       ("header", JValue.null)]
      "parse_float" (by decide) (by decide)).2.2.2.1
  exact h.trans rfl

end PetlJson
